import Mathlib

/-!
Verification of the agent-taylor productivity-analysis core.

The development shallowly embeds the Python modules ai_hours.py, compare.py and
config_detection.py:

* Calendar dates.  The code handles dates as zero-padded YYYY-MM-DD strings,
  comparing them lexicographically and occasionally parsing them with
  datetime.strptime to add one day.  For valid zero-padded date strings,
  lexicographic string order coincides with the field-lexicographic order on
  (year, month, day), so dates are embedded as a Date structure carrying those
  three fields; Date.le / Date.lt embed the string comparisons and
  Date.nextDay embeds strptime followed by timedelta(days=1).

* Python floats (timestamps, hours) are embedded as rationals: the claims under
  verification are about comparisons and field arithmetic, not about rounding.

* Python sorted(...) is stable; it is embedded as a stable insertion sort.

* Python dicts keyed by strings preserve insertion order; they are embedded as
  association lists that append new keys at the end.
-/

/-- A calendar date, the embedding of a zero-padded YYYY-MM-DD string. -/
structure Date where
  year : Nat
  month : Nat
  day : Nat
deriving DecidableEq, Repr

/-- Lexicographic strict order on dates: the embedding of Python string
comparison of zero-padded YYYY-MM-DD strings. -/
def Date.lt (a b : Date) : Bool :=
  if a.year = b.year then
    (if a.month = b.month then decide (a.day < b.day) else decide (a.month < b.month))
  else decide (a.year < b.year)

/-- Lexicographic order on dates (reflexive version). -/
def Date.le (a b : Date) : Bool :=
  Date.lt a b || decide (a = b)

/-- Gregorian leap-year test, as in Python's calendar handling. -/
def isLeap (y : Nat) : Bool :=
  y % 4 = 0 && (y % 100 ≠ 0 || y % 400 = 0)

/-- Number of days in a month of the Gregorian calendar. -/
def daysInMonth (y m : Nat) : Nat :=
  if m = 2 then (if isLeap y then 29 else 28)
  else if m = 4 ∨ m = 6 ∨ m = 9 ∨ m = 11 then 30
  else 31

/-- The calendar day after a given day: the embedding of
datetime.strptime(s) + timedelta(days=1). -/
def Date.nextDay (d : Date) : Date :=
  if d.day < daysInMonth d.year d.month then ⟨d.year, d.month, d.day + 1⟩
  else if d.month < 12 then ⟨d.year, d.month + 1, 1⟩
  else ⟨d.year + 1, 1, 1⟩

/-- A date is valid when its month and day are in their calendar ranges;
valid dates are exactly those a valid zero-padded YYYY-MM-DD string denotes. -/
def Date.valid (d : Date) : Bool :=
  decide (1 ≤ d.month) && decide (d.month ≤ 12) &&
  decide (1 ≤ d.day) && decide (d.day ≤ daysInMonth d.year d.month)

theorem Date.lt_iff (a b : Date) : Date.lt a b = true ↔
    (a.year < b.year ∨ (a.year = b.year ∧
      (a.month < b.month ∨ (a.month = b.month ∧ a.day < b.day)))) := by
  unfold Date.lt
  split_ifs with h1 h2 <;> simp_all

theorem Date.le_iff (a b : Date) : Date.le a b = true ↔
    (a.year < b.year ∨ (a.year = b.year ∧
      (a.month < b.month ∨ (a.month = b.month ∧ a.day ≤ b.day)))) := by
  unfold Date.le
  rcases a with ⟨ay, am, ad⟩
  rcases b with ⟨by_, bm, bd⟩
  simp [Date.lt_iff, Date.mk.injEq]
  constructor
  · rintro (h | ⟨h1, h2, h3⟩) <;> omega
  · intro h
    by_cases hy : ay = by_
    · by_cases hm : am = bm
      · by_cases hd : ad = bd
        · right; exact ⟨hy, hm, hd⟩
        · left; omega
      · left; omega
    · left; omega

theorem Date.le_refl (a : Date) : Date.le a a = true := by
  simp [Date.le_iff]

theorem Date.le_trans {a b c : Date} (h1 : Date.le a b = true)
    (h2 : Date.le b c = true) : Date.le a c = true := by
  rw [Date.le_iff] at *; omega

theorem Date.le_total (a b : Date) : Date.le a b = true ∨ Date.le b a = true := by
  rw [Date.le_iff, Date.le_iff]; omega

theorem Date.lt_of_lt_of_le {a b c : Date} (h1 : Date.lt a b = true)
    (h2 : Date.le b c = true) : Date.lt a c = true := by
  rw [Date.lt_iff] at *; rw [Date.le_iff] at h2; omega

theorem Date.lt_of_le_of_lt {a b c : Date} (h1 : Date.le a b = true)
    (h2 : Date.lt b c = true) : Date.lt a c = true := by
  rw [Date.le_iff] at h1; rw [Date.lt_iff] at *; omega

theorem Date.le_of_lt {a b : Date} (h : Date.lt a b = true) : Date.le a b = true := by
  rw [Date.lt_iff] at h; rw [Date.le_iff]; omega

theorem Date.lt_of_not_le {a b : Date} (h : ¬ Date.le a b = true) :
    Date.lt b a = true := by
  rw [Date.le_iff] at h; rw [Date.lt_iff]; omega

/-- Every date strictly precedes its successor day. -/
theorem Date.lt_nextDay (d : Date) : Date.lt d (Date.nextDay d) = true := by
  unfold Date.nextDay
  split_ifs <;> simp [Date.lt_iff]

/-- For valid dates there is no date strictly between a day and its successor. -/
theorem Date.nextDay_le_of_lt {a b : Date} (ha : Date.valid a = true)
    (hb : Date.valid b = true) (h : Date.lt a b = true) :
    Date.le (Date.nextDay a) b = true := by
  unfold Date.valid at ha hb
  simp only [Bool.and_eq_true, decide_eq_true_eq] at ha hb
  rw [Date.lt_iff] at h
  unfold Date.nextDay
  split_ifs with h1 h2
  · rw [Date.le_iff]; simp only []; omega
  · rw [Date.le_iff]; simp only []
    rcases h with h | ⟨hy, h⟩
    · omega
    · rcases h with h | ⟨hm, hd⟩
      · omega
      · exfalso
        have : daysInMonth a.year a.month = daysInMonth b.year b.month := by
          rw [hy, hm]
        omega
  · rw [Date.le_iff]; simp only []
    rcases h with h | ⟨hy, h⟩
    · omega
    · rcases h with h | ⟨hm, hd⟩
      · omega
      · exfalso
        have : daysInMonth a.year a.month = daysInMonth b.year b.month := by
          rw [hy, hm]
        omega

/-- Stable insertion into a sorted list: an element is placed before the first
element it is le-related to, so earlier list elements stay before equal later
ones, as in Python sorted. -/
def insertLe {α : Type} (le : α → α → Bool) (x : α) : List α → List α
  | [] => [x]
  | y :: ys => if le x y then x :: y :: ys else y :: insertLe le x ys

/-- Stable insertion sort: the embedding of Python sorted(...). -/
def stableSort {α : Type} (le : α → α → Bool) : List α → List α
  | [] => []
  | x :: xs => insertLe le x (stableSort le xs)

theorem insertLe_perm {α : Type} (le : α → α → Bool) (x : α) (l : List α) :
    (insertLe le x l).Perm (x :: l) := by
  induction l with
  | nil => simp [insertLe]
  | cons y ys ih =>
    unfold insertLe
    split_ifs
    · exact List.Perm.refl _
    · exact (List.Perm.cons y ih).trans (List.Perm.swap x y ys)

theorem stableSort_perm {α : Type} (le : α → α → Bool) (l : List α) :
    (stableSort le l).Perm l := by
  induction l with
  | nil => simp [stableSort]
  | cons x xs ih =>
    exact (insertLe_perm le x (stableSort le xs)).trans (List.Perm.cons x ih)

theorem mem_insertLe {α : Type} {le : α → α → Bool} {x a : α} {l : List α} :
    a ∈ insertLe le x l ↔ a = x ∨ a ∈ l := by
  have := (insertLe_perm le x l).mem_iff (a := a)
  simpa using this

theorem insertLe_pairwise {α : Type} {le : α → α → Bool}
    (htrans : ∀ a b c, le a b = true → le b c = true → le a c = true)
    (htot : ∀ a b, le a b = true ∨ le b a = true)
    {x : α} {l : List α} (h : l.Pairwise (fun a b => le a b = true)) :
    (insertLe le x l).Pairwise (fun a b => le a b = true) := by
  induction l with
  | nil => simp [insertLe]
  | cons y ys ih =>
    rw [List.pairwise_cons] at h
    obtain ⟨hy, hys⟩ := h
    unfold insertLe
    split_ifs with hxy
    · rw [List.pairwise_cons]
      refine ⟨?_, List.pairwise_cons.mpr ⟨hy, hys⟩⟩
      intro z hz
      rw [List.mem_cons] at hz
      rcases hz with hz | hz
      · rw [hz]; exact hxy
      · exact htrans x y z hxy (hy z hz)
    · rw [List.pairwise_cons]
      refine ⟨?_, ih hys⟩
      intro z hz
      rcases mem_insertLe.mp hz with hz | hz
      · rw [hz]
        rcases htot x y with h' | h'
        · exact absurd h' hxy
        · exact h'
      · exact hy z hz

theorem stableSort_pairwise {α : Type} {le : α → α → Bool}
    (htrans : ∀ a b c, le a b = true → le b c = true → le a c = true)
    (htot : ∀ a b, le a b = true ∨ le b a = true) (l : List α) :
    (stableSort le l).Pairwise (fun a b => le a b = true) := by
  induction l with
  | nil => simp [stableSort]
  | cons x xs ih => exact insertLe_pairwise htrans htot ih

/-! ## Coverage windows (ai_hours.py) -/

/-- A coverage window: an inclusive (start_date, end_date) pair. -/
abbrev Window := Date × Date

/-- Comparison of windows by start date: the sort key of
sorted(windows, key w selects w[0]) in merge_coverage_windows. -/
def winStartLe (a b : Window) : Bool := Date.le a.1 b.1

/-- Python max(a, b) on date strings. -/
def dmax (a b : Date) : Date := if Date.lt a b then b else a

/-- Python min(a, b) on date strings. -/
def dmin (a b : Date) : Date := if Date.lt b a then b else a

/-- The merging loop of merge_coverage_windows: carries the open window
(current_start, current_end) and folds the remaining sorted windows, merging
when the next start is at most one day after the current end, and emitting the
open window otherwise. -/
def mergeLoop : Date → Date → List Window → List Window
  | cs, ce, [] => [(cs, ce)]
  | cs, ce, (s, e) :: rest =>
    if Date.le s (Date.nextDay ce) then
      mergeLoop cs (if Date.lt ce e then e else ce) rest
    else
      (cs, ce) :: mergeLoop s e rest

/-- merge_coverage_windows from ai_hours.py: sort by start date, then fold
adjacent or overlapping windows together. -/
def merge_coverage_windows (windows : List Window) : List Window :=
  match stableSort winStartLe windows with
  | [] => []
  | (cs, ce) :: rest => mergeLoop cs ce rest

/-- is_date_covered from ai_hours.py: a date is covered when it lies in some
window, inclusively on both ends. -/
def is_date_covered (date : Date) (windows : List Window) : Bool :=
  windows.any (fun w => Date.le w.1 date && Date.le date w.2)

/-- intersect_coverage_windows from ai_hours.py: empty input short-circuits to
the empty list; otherwise every window of the first list is overlapped against
every window of the second, non-empty overlaps are kept, and the overlap list
is merged. -/
def intersect_coverage_windows (windows1 windows2 : List Window) : List Window :=
  if windows1.isEmpty || windows2.isEmpty then []
  else
    merge_coverage_windows <|
      windows1.flatMap fun w1 =>
        windows2.filterMap fun w2 =>
          let overlap_start := dmax w1.1 w2.1
          let overlap_end := dmin w1.2 w2.2
          if Date.le overlap_start overlap_end then some (overlap_start, overlap_end)
          else none


/-! ## Window invariants -/

theorem Date.not_le_of_lt {a b : Date} (h : Date.lt a b = true) :
    ¬ Date.le b a = true := by
  rw [Date.lt_iff] at h; rw [Date.le_iff]; omega

theorem Date.le_of_not_lt {a b : Date} (h : ¬ Date.lt a b = true) :
    Date.le b a = true := by
  rw [Date.lt_iff] at h; rw [Date.le_iff]; omega

theorem winStartLe_trans (a b c : Window) (h1 : winStartLe a b = true)
    (h2 : winStartLe b c = true) : winStartLe a c = true :=
  Date.le_trans h1 h2

theorem winStartLe_total (a b : Window) :
    winStartLe a b = true ∨ winStartLe b a = true :=
  Date.le_total a.1 b.1

theorem bool_eq_of_iff {a b : Bool} (h : a = true ↔ b = true) : a = b := by
  cases a <;> cases b <;> simp_all

/-- The start of every window produced by the merging loop is the carried
start or the start of one of the remaining windows. -/
theorem mergeLoop_starts (rest : List Window) : ∀ cs ce : Date,
    ∀ w ∈ mergeLoop cs ce rest, w.1 = cs ∨ ∃ w' ∈ rest, w.1 = w'.1 := by
  induction rest with
  | nil =>
    intro cs ce w hw
    simp [mergeLoop] at hw
    left; rw [hw]
  | cons hd tl ih =>
    intro cs ce w hw
    rcases hd with ⟨s, e⟩
    cases hadj : Date.le s (Date.nextDay ce) with
    | true =>
      simp only [mergeLoop, hadj, if_true] at hw
      rcases ih cs _ w hw with h | ⟨w', hw', h⟩
      · left; exact h
      · right; exact ⟨w', List.mem_cons_of_mem _ hw', h⟩
    | false =>
      simp only [mergeLoop, hadj, Bool.false_eq_true, if_false] at hw
      rcases List.mem_cons.mp hw with h | h
      · left; rw [h]
      · rcases ih s e w h with h' | ⟨w', hw', h'⟩
        · right; exact ⟨(s, e), List.mem_cons_self _ _, h'⟩
        · right; exact ⟨w', List.mem_cons_of_mem _ hw', h'⟩

/-- In the merging loop's output, every window's end strictly precedes every
later window's start. -/
theorem mergeLoop_chain (rest : List Window) : ∀ cs ce : Date,
    rest.Pairwise (fun a b => winStartLe a b = true) →
    (mergeLoop cs ce rest).Pairwise (fun w w' => Date.lt w.2 w'.1 = true) := by
  induction rest with
  | nil => intro cs ce _; simp [mergeLoop]
  | cons hd tl ih =>
    intro cs ce hpw
    rcases hd with ⟨s, e⟩
    rw [List.pairwise_cons] at hpw
    obtain ⟨hhd, htl⟩ := hpw
    cases hadj : Date.le s (Date.nextDay ce) with
    | true =>
      simp only [mergeLoop, hadj, if_true]
      exact ih cs _ htl
    | false =>
      simp only [mergeLoop, hadj, Bool.false_eq_true, if_false]
      rw [List.pairwise_cons]
      refine ⟨?_, ih s e htl⟩
      intro w hw
      have hnle : ¬ Date.le s (Date.nextDay ce) = true := by
        rw [hadj]; exact Bool.false_ne_true
      have hce_s : Date.lt ce s = true :=
        Date.lt_of_lt_of_le (Date.lt_nextDay ce) (Date.le_of_lt (Date.lt_of_not_le hnle))
      rcases mergeLoop_starts tl s e w hw with h | ⟨w', hw', h⟩
      · rw [h]; exact hce_s
      · rw [h]
        exact Date.lt_of_lt_of_le hce_s (hhd w' hw')

/-- The merging loop preserves start-before-end windows. -/
theorem mergeLoop_wf (rest : List Window) : ∀ cs ce : Date,
    (∀ w ∈ rest, Date.le w.1 w.2 = true) → Date.le cs ce = true →
    ∀ w ∈ mergeLoop cs ce rest, Date.le w.1 w.2 = true := by
  induction rest with
  | nil =>
    intro cs ce _ hcs w hw
    simp [mergeLoop] at hw
    rw [hw]; exact hcs
  | cons hd tl ih =>
    intro cs ce hrest hcs w hw
    rcases hd with ⟨s, e⟩
    cases hadj : Date.le s (Date.nextDay ce) with
    | true =>
      simp only [mergeLoop, hadj, if_true] at hw
      refine ih cs _ (fun w' hw' => hrest w' (List.mem_cons_of_mem _ hw')) ?_ w hw
      cases hlt : Date.lt ce e with
      | true =>
        simp only [hlt, if_true]
        exact Date.le_trans hcs (Date.le_of_lt hlt)
      | false =>
        simp only [hlt, Bool.false_eq_true, if_false]
        exact hcs
    | false =>
      simp only [mergeLoop, hadj, Bool.false_eq_true, if_false] at hw
      rcases List.mem_cons.mp hw with h | h
      · rw [h]; exact hcs
      · exact ih s e (fun w' hw' => hrest w' (List.mem_cons_of_mem _ hw'))
          (hrest (s, e) (List.mem_cons_self _ _)) w h

/-- Merging a window that starts at most one day past the current end into the
open window covers exactly the dates the two windows covered. -/
theorem window_union (d cs ce s e : Date) (hd : Date.valid d = true)
    (hce : Date.valid ce = true) (hcs_s : Date.le cs s = true)
    (hadj : Date.le s (Date.nextDay ce) = true) :
    (Date.le cs d && Date.le d (if Date.lt ce e then e else ce)) =
      ((Date.le cs d && Date.le d ce) || (Date.le s d && Date.le d e)) := by
  apply bool_eq_of_iff
  simp only [Bool.and_eq_true, Bool.or_eq_true]
  constructor
  · rintro ⟨h1, h2⟩
    split_ifs at h2 with hlt
    · by_cases hdce : Date.le d ce = true
      · exact Or.inl ⟨h1, hdce⟩
      · refine Or.inr ⟨?_, h2⟩
        exact Date.le_trans hadj (Date.nextDay_le_of_lt hce hd (Date.lt_of_not_le hdce))
    · exact Or.inl ⟨h1, h2⟩
  · rintro (⟨h1, h2⟩ | ⟨h1, h2⟩)
    · refine ⟨h1, ?_⟩
      split_ifs with hlt
      · exact Date.le_trans h2 (Date.le_of_lt hlt)
      · exact h2
    · refine ⟨Date.le_trans hcs_s h1, ?_⟩
      split_ifs with hlt
      · exact h2
      · exact Date.le_trans h2 (Date.le_of_not_lt hlt)

theorem is_date_covered_cons (d : Date) (w : Window) (l : List Window) :
    is_date_covered d (w :: l) =
      ((Date.le w.1 d && Date.le d w.2) || is_date_covered d l) := by
  simp [is_date_covered]

/-- Dates covered by the merging loop's output are exactly those covered by
the open window or by one of the remaining (sorted) windows. -/
theorem mergeLoop_covered (d : Date) (hd : Date.valid d = true)
    (rest : List Window) : ∀ cs ce : Date,
    Date.valid ce = true → (∀ w ∈ rest, Date.valid w.2 = true) →
    (∀ w ∈ rest, Date.le cs w.1 = true) →
    rest.Pairwise (fun a b => winStartLe a b = true) →
    is_date_covered d (mergeLoop cs ce rest) =
      ((Date.le cs d && Date.le d ce) || is_date_covered d rest) := by
  induction rest with
  | nil => intro cs ce _ _ _ _; simp [mergeLoop, is_date_covered]
  | cons hd' tl ih =>
    intro cs ce hce hv hstart hpw
    rcases hd' with ⟨s, e⟩
    rw [List.pairwise_cons] at hpw
    obtain ⟨hhd, htl⟩ := hpw
    have hve : Date.valid e = true := hv (s, e) (List.mem_cons_self _ _)
    cases hadj : Date.le s (Date.nextDay ce) with
    | true =>
      simp only [mergeLoop, hadj, if_true]
      have hce' : Date.valid (if Date.lt ce e then e else ce) = true := by
        cases hlt : Date.lt ce e with
        | true => simpa only [hlt, if_true] using hve
        | false => simpa only [hlt, Bool.false_eq_true, if_false] using hce
      rw [ih cs _ hce' (fun w hw => hv w (List.mem_cons_of_mem _ hw))
        (fun w hw => hstart w (List.mem_cons_of_mem _ hw)) htl]
      rw [window_union d cs ce s e hd hce
        (hstart (s, e) (List.mem_cons_self _ _)) hadj]
      rw [is_date_covered_cons, Bool.or_assoc]
    | false =>
      simp only [mergeLoop, hadj, Bool.false_eq_true, if_false]
      rw [is_date_covered_cons, is_date_covered_cons,
        ih s e hve (fun w hw => hv w (List.mem_cons_of_mem _ hw))
          (fun w hw => hhd w hw) htl]

theorem any_perm_eq {α : Type} {l1 l2 : List α} (h : l1.Perm l2) (p : α → Bool) :
    l1.any p = l2.any p := by
  apply bool_eq_of_iff
  simp only [List.any_eq_true]
  constructor
  · rintro ⟨x, hx, hpx⟩; exact ⟨x, h.mem_iff.mp hx, hpx⟩
  · rintro ⟨x, hx, hpx⟩; exact ⟨x, h.mem_iff.mpr hx, hpx⟩

theorem Date.lt_asymm {a b : Date} (h : Date.lt a b = true) :
    Date.lt b a = false := by
  cases hba : Date.lt b a with
  | false => rfl
  | true => exfalso; rw [Date.lt_iff] at h hba; omega

/-- merge_coverage_windows output satisfies the strict chain property: every
window's end strictly precedes every later window's start. -/
theorem merge_chain (ws : List Window) :
    (merge_coverage_windows ws).Pairwise (fun w w' => Date.lt w.2 w'.1 = true) := by
  unfold merge_coverage_windows
  cases hs : stableSort winStartLe ws with
  | nil => simp
  | cons hd tl =>
    rcases hd with ⟨cs, ce⟩
    have hpw : (stableSort winStartLe ws).Pairwise (fun a b => winStartLe a b = true) :=
      stableSort_pairwise winStartLe_trans winStartLe_total ws
    rw [hs, List.pairwise_cons] at hpw
    exact mergeLoop_chain tl cs ce hpw.2

/-- merge_coverage_windows output windows run from their start to a later or
equal end whenever the input windows do. -/
theorem merge_wf (ws : List Window) (hse : ∀ w ∈ ws, Date.le w.1 w.2 = true) :
    ∀ w ∈ merge_coverage_windows ws, Date.le w.1 w.2 = true := by
  unfold merge_coverage_windows
  cases hs : stableSort winStartLe ws with
  | nil => simp
  | cons hd tl =>
    rcases hd with ⟨cs, ce⟩
    have hperm := stableSort_perm winStartLe ws
    rw [hs] at hperm
    intro w hw
    refine mergeLoop_wf tl cs ce ?_ ?_ w hw
    · intro w' hw'
      exact hse w' (hperm.mem_iff.mp (List.mem_cons_of_mem _ hw'))
    · exact hse (cs, ce) (hperm.mem_iff.mp (List.mem_cons_self _ _))

/-- A window list is sorted ascending by start date. -/
def sortedByStart (l : List Window) : Prop :=
  l.Pairwise (fun a b => Date.le a.1 b.1 = true)

/-- Two windows overlap when the later start is at most the earlier end, the
overlap test used by intersect_coverage_windows. -/
def windowsOverlap (a b : Window) : Bool :=
  Date.le (dmax a.1 b.1) (dmin a.2 b.2)

/-- No two windows of the list overlap. -/
def noTwoOverlap (l : List Window) : Prop :=
  l.Pairwise (fun a b => windowsOverlap a b = false)

theorem chain_props {l : List Window}
    (hchain : l.Pairwise (fun w w' => Date.lt w.2 w'.1 = true))
    (hwf : ∀ w ∈ l, Date.le w.1 w.2 = true) :
    sortedByStart l ∧ noTwoOverlap l := by
  constructor
  · refine hchain.imp_of_mem ?_
    intro a b ha hb h
    exact Date.le_trans (hwf a ha) (Date.le_of_lt h)
  · refine hchain.imp_of_mem ?_
    intro a b ha hb h
    have ha2 : Date.le a.1 a.2 = true := hwf a ha
    have hb2 : Date.le b.1 b.2 = true := hwf b hb
    have h1 : Date.lt a.1 b.1 = true := Date.lt_of_le_of_lt ha2 h
    have h2 : Date.lt a.2 b.2 = true := Date.lt_of_lt_of_le h hb2
    have h3 : Date.lt b.2 a.2 = false := Date.lt_asymm h2
    unfold windowsOverlap dmax dmin
    simp only [h1, if_true, h3, Bool.false_eq_true, if_false]
    rw [Bool.eq_false_iff]
    exact Date.not_le_of_lt h

/-- C7: for every input list of windows with valid dates and start on or
before end per window, the list returned by merge_coverage_windows is sorted
ascending by start date and contains no two overlapping windows, and the same
holds for every list returned by intersect_coverage_windows. -/
theorem merge_intersect_sorted_no_overlap (ws windows1 windows2 : List Window)
    (hv : ∀ w ∈ ws, Date.valid w.1 = true ∧ Date.valid w.2 = true ∧
      Date.le w.1 w.2 = true) :
    (sortedByStart (merge_coverage_windows ws) ∧
      noTwoOverlap (merge_coverage_windows ws)) ∧
    (sortedByStart (intersect_coverage_windows windows1 windows2) ∧
      noTwoOverlap (intersect_coverage_windows windows1 windows2)) := by
  constructor
  · exact chain_props (merge_chain ws) (merge_wf ws (fun w hw => (hv w hw).2.2))
  · unfold intersect_coverage_windows
    split_ifs with h
    · exact ⟨List.Pairwise.nil, List.Pairwise.nil⟩
    · apply chain_props (merge_chain _)
      apply merge_wf
      intro w hw
      rw [List.mem_flatMap] at hw
      obtain ⟨w1, hw1, hw⟩ := hw
      rw [List.mem_filterMap] at hw
      obtain ⟨w2, hw2, hw⟩ := hw
      simp only [] at hw
      split_ifs at hw with hle
      cases hw
      exact hle

/-- Witness for C7 at a concrete window list. -/
theorem merge_intersect_sorted_no_overlap_witness :
    sortedByStart (merge_coverage_windows
      [(⟨2025,1,1⟩, ⟨2025,1,31⟩), (⟨2025,2,2⟩, ⟨2025,2,28⟩)]) ∧
    noTwoOverlap (merge_coverage_windows
      [(⟨2025,1,1⟩, ⟨2025,1,31⟩), (⟨2025,2,2⟩, ⟨2025,2,28⟩)]) :=
  (merge_intersect_sorted_no_overlap
    [(⟨2025,1,1⟩, ⟨2025,1,31⟩), (⟨2025,2,2⟩, ⟨2025,2,28⟩)] [] []
    (by decide)).1

/-- C9: merging coverage windows preserves the covered dates: for windows with
valid dates and start on or before end, a valid date is covered by the merged
list exactly when it is covered by the original list. -/
theorem merge_preserves_covered_dates (ws : List Window) (d : Date)
    (hv : ∀ w ∈ ws, Date.valid w.1 = true ∧ Date.valid w.2 = true ∧
      Date.le w.1 w.2 = true)
    (hd : Date.valid d = true) :
    is_date_covered d (merge_coverage_windows ws) = is_date_covered d ws := by
  unfold merge_coverage_windows
  cases hs : stableSort winStartLe ws with
  | nil =>
    have hperm := stableSort_perm winStartLe ws
    rw [hs] at hperm
    rw [hperm.symm.eq_nil]
  | cons hd' tl =>
    rcases hd' with ⟨cs, ce⟩
    have hperm := stableSort_perm winStartLe ws
    rw [hs] at hperm
    have hpw := stableSort_pairwise winStartLe_trans winStartLe_total ws
    rw [hs, List.pairwise_cons] at hpw
    have hmem : ∀ w ∈ (cs, ce) :: tl, w ∈ ws := fun w hw => hperm.mem_iff.mp hw
    rw [mergeLoop_covered d hd tl cs ce
      (hv _ (hmem _ (List.mem_cons_self _ _))).2.1
      (fun w hw => (hv w (hmem _ (List.mem_cons_of_mem _ hw))).2.1)
      (fun w hw => hpw.1 w hw)
      hpw.2]
    have hcons : is_date_covered d ((cs, ce) :: tl) =
        ((Date.le cs d && Date.le d ce) || is_date_covered d tl) := by
      simp [is_date_covered]
    rw [← hcons]
    exact any_perm_eq hperm _

/-- Witness for C9 at a concrete window list and date. -/
theorem merge_preserves_covered_dates_witness :
    is_date_covered ⟨2025,1,15⟩ (merge_coverage_windows
      [(⟨2025,1,1⟩, ⟨2025,1,31⟩), (⟨2025,2,1⟩, ⟨2025,2,28⟩)]) =
    is_date_covered ⟨2025,1,15⟩
      [(⟨2025,1,1⟩, ⟨2025,1,31⟩), (⟨2025,2,1⟩, ⟨2025,2,28⟩)] :=
  merge_preserves_covered_dates
    [(⟨2025,1,1⟩, ⟨2025,1,31⟩), (⟨2025,2,1⟩, ⟨2025,2,28⟩)] ⟨2025,1,15⟩
    (by decide) (by decide)

/-- C2: two start-sorted windows merge into one exactly when the second starts
at most one day after the first ends; in particular exactly adjacent January
and February windows merge, while a one-day gap stays unmerged. -/
theorem merge_two_windows_iff_adjacent (s1 e1 s2 e2 : Date)
    (hsorted : Date.le s1 s2 = true) :
    ((merge_coverage_windows [(s1, e1), (s2, e2)]).length = 1 ↔
      Date.le s2 (Date.nextDay e1) = true) ∧
    merge_coverage_windows [(⟨2025,1,1⟩, ⟨2025,1,31⟩), (⟨2025,2,1⟩, ⟨2025,2,28⟩)] =
      [(⟨2025,1,1⟩, ⟨2025,2,28⟩)] ∧
    merge_coverage_windows [(⟨2025,1,1⟩, ⟨2025,1,31⟩), (⟨2025,2,2⟩, ⟨2025,2,28⟩)] =
      [(⟨2025,1,1⟩, ⟨2025,1,31⟩), (⟨2025,2,2⟩, ⟨2025,2,28⟩)] := by
  refine ⟨?_, by decide, by decide⟩
  have hsort : stableSort winStartLe [(s1, e1), (s2, e2)] = [(s1, e1), (s2, e2)] := by
    simp [stableSort, insertLe, winStartLe, hsorted]
  unfold merge_coverage_windows
  rw [hsort]
  cases hadj : Date.le s2 (Date.nextDay e1) with
  | true => simp [mergeLoop, hadj]
  | false => simp [mergeLoop, hadj]

/-- Witness for C2 at concrete dates. -/
theorem merge_two_windows_iff_adjacent_witness :
    (merge_coverage_windows [(⟨2025,3,1⟩, ⟨2025,3,10⟩), (⟨2025,3,11⟩, ⟨2025,3,20⟩)]).length = 1 :=
  (merge_two_windows_iff_adjacent ⟨2025,3,1⟩ ⟨2025,3,10⟩ ⟨2025,3,11⟩ ⟨2025,3,20⟩
    (by decide)).1.mpr (by decide)

/-- The overlap list as the spec words it: the pairwise non-empty overlaps
(later start at most the earlier end) of the windows of the two sources. -/
def specPairwiseOverlaps (windows1 windows2 : List Window) : List Window :=
  windows1.flatMap fun w1 =>
    windows2.filterMap fun w2 =>
      if Date.le (dmax w1.1 w2.1) (dmin w1.2 w2.2) then
        some (dmax w1.1 w2.1, dmin w1.2 w2.2)
      else none

/-- C4: intersect_coverage_windows keeps exactly the pairwise non-empty
overlaps of the two window lists and merges them by the adjacency rule; the
concrete two-against-one intersection from the spec evaluates as stated. -/
theorem intersect_eq_merge_of_overlaps (windows1 windows2 : List Window) :
    intersect_coverage_windows windows1 windows2 =
      merge_coverage_windows (specPairwiseOverlaps windows1 windows2) ∧
    intersect_coverage_windows
      [(⟨2025,1,1⟩, ⟨2025,2,28⟩), (⟨2025,4,1⟩, ⟨2025,5,31⟩)]
      [(⟨2025,2,1⟩, ⟨2025,4,30⟩)] =
      [(⟨2025,2,1⟩, ⟨2025,2,28⟩), (⟨2025,4,1⟩, ⟨2025,4,30⟩)] := by
  constructor
  · unfold intersect_coverage_windows specPairwiseOverlaps
    split_ifs with h
    · rcases Bool.or_eq_true_iff.mp h with h1 | h2
      · rw [List.isEmpty_iff.mp h1]
        simp [merge_coverage_windows, stableSort]
      · rw [List.isEmpty_iff.mp h2]
        have hnil : (windows1.flatMap fun _ => ([] : List Window)) = [] := by
          induction windows1 with
          | nil => rfl
          | cons x xs ih => simp [List.flatMap_cons, ih]
        simp only [List.filterMap_nil, hnil]
        simp [merge_coverage_windows, stableSort]
    · rfl
  · decide

/-! ## Configuration classifier (config_detection.py, compare.py) -/

/-- A Python value appearing in the beadhub_date position of
get_configuration: its annotation says an optional date string, but
classify_session actually passes a bool, so the embedding carries all three
possibilities. -/
inductive PyOptVal where
  | pynone
  | pydate (d : Date)
  | pybool (b : Bool)
deriving DecidableEq, Repr

/-- A Python runtime error surfaced by the embedded code. -/
inductive PyError where
  | typeError
deriving DecidableEq, Repr

/-- get_configuration from config_detection.py.  Python compares the date
strings lexicographically, embedded by Date.lt / Date.le; comparing a date
string against a bool with >= raises TypeError. -/
def get_configuration (beads_date : Option Date) (beadhub_date : PyOptVal)
    (check_date : Date) : Except PyError String :=
  match beads_date with
  | Option.none => Except.ok "none"
  | some bd =>
    if Date.lt check_date bd then Except.ok "none"
    else
      match beadhub_date with
      | PyOptVal.pynone => Except.ok "beads"
      | PyOptVal.pydate hd =>
          if Date.le hd check_date then Except.ok "beads+beadhub"
          else Except.ok "beads"
      | PyOptVal.pybool _ => Except.error PyError.typeError

/-- classify_session from compare.py: it forwards the boolean is_beadhub as
the beadhub_date argument of get_configuration. -/
def classify_session (session_start_date : Date) (beads_date : Option Date)
    (is_beadhub : Bool) : Except PyError String :=
  get_configuration beads_date (PyOptVal.pybool is_beadhub) session_start_date

/-- C1: the composition of classify_session with get_configuration returns
"none" when the beads date is missing or the session date precedes it, but on
or after the beads adoption date it raises TypeError instead of returning
"beads+beadhub" or "beads", for flagged and unflagged repositories alike: the
boolean is_beadhub is passed where get_configuration expects an optional date
string, and Python cannot order a string against a bool. -/
theorem classify_session_type_error (d bd : Date) (b : Bool)
    (hafter : ¬ Date.lt d bd = true) :
    (∀ d' : Date, ∀ b' : Bool,
      classify_session d' Option.none b' = Except.ok "none") ∧
    (∀ d' bd' : Date, ∀ b' : Bool, Date.lt d' bd' = true →
      classify_session d' (some bd') b' = Except.ok "none") ∧
    classify_session d (some bd) b = Except.error PyError.typeError := by
  refine ⟨fun d' b' => rfl, fun d' bd' b' h => ?_, ?_⟩
  · simp [classify_session, get_configuration, h]
  · simp [classify_session, get_configuration, hafter]

/-- Witness for C1's TypeError at the concrete failing input: session on
2025-06-15, beads adopted 2025-05-01, flagged repository. -/
theorem classify_session_type_error_witness :
    classify_session ⟨2025,6,15⟩ (some ⟨2025,5,1⟩) true =
      Except.error PyError.typeError :=
  (classify_session_type_error ⟨2025,6,15⟩ ⟨2025,5,1⟩ true (by decide)).2.2

/-! ## Interactions and sessions (ai_hours.py) -/

/-- Interaction from ai_hours.py: one message of an AI conversation. -/
structure Interaction where
  timestamp : ℚ
  message_type : String
  project : String
deriving DecidableEq, Repr

/-- Session from ai_hours.py: a continuous work period on one project. -/
structure Session where
  project : String
  project_full : String
  start_ts : ℚ
  end_ts : ℚ
  interactions : Nat
deriving DecidableEq, Repr

/-- SESSION_GAP_SECONDS from ai_hours.py: 5 minutes. -/
def SESSION_GAP_SECONDS : ℚ := 5 * 60

/-- THINKING_PREFIX_SECONDS from ai_hours.py: 3 minutes. -/
def THINKING_PREFIX_SECONDS : ℚ := 3 * 60

/-- Session.duration_seconds from ai_hours.py. -/
def Session.duration_seconds (s : Session) : ℚ := max 0 (s.end_ts - s.start_ts)

/-- Session.estimated_seconds from ai_hours.py. -/
def Session.estimated_seconds (s : Session) : ℚ :=
  s.duration_seconds + THINKING_PREFIX_SECONDS

/-- _project_name from ai_hours.py: the last path component, or "unknown" for
an empty path; embedded as the last non-empty slash-separated component. -/
def _project_name (full_path : String) : String :=
  if full_path = "" then "unknown"
  else
    match ((full_path.splitOn "/").filter (fun s => s ≠ "")).getLast? with
    | some n => n
    | Option.none => ""

/-- The filter applied while grouping in detect_sessions: Python keeps an
interaction unless project_filter is truthy (neither None nor the empty
string) and the project name differs from it. -/
def passesFilter (project_filter : Option String) (i : Interaction) : Bool :=
  match project_filter with
  | Option.none => true
  | some f => decide (f = "") || decide (_project_name i.project = f)

/-- One insertion into the by_project dict of detect_sessions: append to the
existing entry for the full project path, or add a new entry at the end. -/
def addToGroup : List (String × List Interaction) → Interaction →
    List (String × List Interaction)
  | [], i => [(i.project, [i])]
  | (k, l) :: rest, i =>
    if k = i.project then (k, l ++ [i]) :: rest
    else (k, l) :: addToGroup rest i

/-- The by_project dict of detect_sessions, in insertion order. -/
def groupByProject (interactions : List Interaction)
    (project_filter : Option String) : List (String × List Interaction) :=
  interactions.foldl
    (fun acc i => if passesFilter project_filter i then addToGroup acc i else acc) []

/-- The per-project scanning state of detect_sessions. -/
structure SessAcc where
  sessionStart : Option ℚ
  sessionEnd : Option ℚ
  sessionCount : Nat
  lastAssistant : Option ℚ
  emitted : List Session
deriving Repr

/-- flush_session from detect_sessions: emit the open session when its start
and end are set and it contains at least one interaction, then reset the
open-session fields; the last assistant timestamp is kept. -/
def flush_session (proj projFull : String) (a : SessAcc) : SessAcc :=
  match a.sessionStart, a.sessionEnd with
  | some st, some en =>
    if a.sessionCount > 0 then
      { a with
        emitted := a.emitted ++ [⟨proj, projFull, st, en, a.sessionCount⟩],
        sessionStart := Option.none, sessionEnd := Option.none, sessionCount := 0 }
    else
      { a with
        sessionStart := Option.none
        sessionEnd := Option.none
        sessionCount := 0 }
  | _, _ =>
      { a with
        sessionStart := Option.none
        sessionEnd := Option.none
        sessionCount := 0 }

/-- The split check of detect_sessions' loop: a user message at or past the
session gap after the last recorded assistant timestamp flushes the open
session; any other message leaves the state unchanged. -/
def session_maybe_flush (proj projFull : String) (a : SessAcc) (i : Interaction) :
    SessAcc :=
  if i.message_type = "user" then
    match a.lastAssistant with
    | some la =>
      if i.timestamp - la ≥ SESSION_GAP_SECONDS then flush_session proj projFull a
      else a
    | Option.none => a
  else a

/-- The initialize-or-extend phase of detect_sessions' loop: set the session
start if unset, move the session end to this interaction, and count it. -/
def session_extend (a : SessAcc) (i : Interaction) : SessAcc :=
  { a with
    sessionStart := match a.sessionStart with
      | Option.none => some i.timestamp
      | some s => some s,
    sessionEnd := some i.timestamp,
    sessionCount := a.sessionCount + 1 }

/-- The last phase of detect_sessions' loop: an assistant message records its
timestamp. -/
def session_note_assistant (a : SessAcc) (i : Interaction) : SessAcc :=
  if i.message_type = "assistant" then { a with lastAssistant := some i.timestamp }
  else a

/-- One iteration of detect_sessions' loop over a project's interactions: the
three phases of the loop body in order. -/
def session_step (proj projFull : String) (a : SessAcc) (i : Interaction) : SessAcc :=
  session_note_assistant (session_extend (session_maybe_flush proj projFull a i) i) i

/-- detect_sessions' handling of one project: sort its interactions by
timestamp, scan them, and flush the trailing open session. -/
def detect_project_sessions (projFull : String) (l : List Interaction) :
    List Session :=
  (flush_session (_project_name projFull) projFull
    ((stableSort (fun a b => decide (a.timestamp ≤ b.timestamp)) l).foldl
      (session_step (_project_name projFull) projFull)
      ⟨Option.none, Option.none, 0, Option.none, []⟩)).emitted

/-- detect_sessions from ai_hours.py: group by full project path in insertion
order, scan each project, and sort all emitted sessions by start timestamp. -/
def detect_sessions (interactions : List Interaction)
    (project_filter : Option String) : List Session :=
  stableSort (fun a b => decide (a.start_ts ≤ b.start_ts))
    ((groupByProject interactions project_filter).flatMap
      (fun g => detect_project_sessions g.1 g.2))

/-! ## Sittings (spec-modelled) -/

/-- Modelled from the spec: the repository's sitting segmenter is not under
src (only a downstream CSV consumer of its output is), so the Sitting work
period follows spec sections 3 and 4.2: a cross-project period with start and
end timestamps, interaction count, and the set of distinct project names
touched. -/
structure Sitting where
  start_ts : ℚ
  end_ts : ℚ
  interactions : Nat
  projects : Finset String
deriving DecidableEq

/-- Modelled from the spec: sittings split at a 20 minute gap. -/
def SITTING_GAP_SECONDS : ℚ := 20 * 60

/-- Modelled from the spec: raw sitting duration. -/
def Sitting.duration_seconds (s : Sitting) : ℚ := max 0 (s.end_ts - s.start_ts)

/-- Modelled from the spec: both period variants add the same 3 minute prefix
constant to their duration. -/
def Sitting.estimated_seconds (s : Sitting) : ℚ :=
  s.duration_seconds + THINKING_PREFIX_SECONDS

/-- Modelled from the spec: single chronological scan over all events,
without any project grouping; a new sitting begins when the gap between the
current event and the end of the current sitting is at least
SITTING_GAP_SECONDS; otherwise the event extends the sitting and adds its
project name to the set. -/
def sittingScan : Option Sitting → List Interaction → List Sitting
  | Option.none, [] => []
  | some cur, [] => [cur]
  | Option.none, i :: rest =>
      sittingScan (some ⟨i.timestamp, i.timestamp, 1, {_project_name i.project}⟩) rest
  | some cur, i :: rest =>
      if i.timestamp - cur.end_ts ≥ SITTING_GAP_SECONDS then
        cur :: sittingScan
          (some ⟨i.timestamp, i.timestamp, 1, {_project_name i.project}⟩) rest
      else
        sittingScan (some { cur with
          end_ts := i.timestamp,
          interactions := cur.interactions + 1,
          projects := insert (_project_name i.project) cur.projects }) rest

/-- Modelled from the spec: the sitting segmenter scans all events in
chronological order. -/
def detect_sittings (events : List Interaction) : List Sitting :=
  sittingScan Option.none
    (stableSort (fun a b => decide (a.timestamp ≤ b.timestamp)) events)

/-- C6: for every work period of either variant, the estimated duration is
max(0, end_ts - start_ts) plus the fixed 180 second thinking prefix (the
Session variant from the source, the Sitting variant from the spec model). -/
theorem estimated_seconds_formula (s : Session) (t : Sitting) :
    s.estimated_seconds = max 0 (s.end_ts - s.start_ts) + 180 ∧
    t.estimated_seconds = max 0 (t.end_ts - t.start_ts) + 180 := by
  unfold Session.estimated_seconds Sitting.estimated_seconds
    Session.duration_seconds Sitting.duration_seconds THINKING_PREFIX_SECONDS
  norm_num

/-- C3: in a project's time-sorted stream, a user interaction starts a new
session exactly when some assistant interaction has occurred before it and the
gap from the most recent assistant timestamp is at least 300 seconds: for
user, assistant, user events at t0 <= t1 <= t2, a gap t2 - t1 >= 300 yields
two sessions (a gap of exactly 300 included) and a smaller gap extends the
single session; an assistant event never splits regardless of gap, nor does a
user event with no prior assistant event. -/
theorem detect_sessions_split_rule (p : String) (t0 t1 t2 : ℚ)
    (h01 : t0 ≤ t1) (h12 : t1 ≤ t2) :
    (t2 - t1 ≥ 300 →
      detect_sessions [⟨t0, "user", p⟩, ⟨t1, "assistant", p⟩, ⟨t2, "user", p⟩]
        Option.none =
      [⟨_project_name p, p, t0, t1, 2⟩, ⟨_project_name p, p, t2, t2, 1⟩]) ∧
    (t2 - t1 < 300 →
      detect_sessions [⟨t0, "user", p⟩, ⟨t1, "assistant", p⟩, ⟨t2, "user", p⟩]
        Option.none =
      [⟨_project_name p, p, t0, t2, 3⟩]) ∧
    (detect_sessions [⟨t0, "user", p⟩, ⟨t1, "assistant", p⟩, ⟨t2, "assistant", p⟩]
        Option.none =
      [⟨_project_name p, p, t0, t2, 3⟩]) ∧
    (detect_sessions [⟨t0, "user", p⟩, ⟨t2, "user", p⟩] Option.none =
      [⟨_project_name p, p, t0, t2, 2⟩]) := by
  have h02 : t0 ≤ t2 := le_trans h01 h12
  refine ⟨?_, ?_, ?_, ?_⟩
  · intro hgap
    have hgap' : t2 - t1 ≥ SESSION_GAP_SECONDS := by
      unfold SESSION_GAP_SECONDS; linarith
    simp [detect_sessions, groupByProject, passesFilter, addToGroup,
      detect_project_sessions, stableSort, insertLe, session_step,
      session_maybe_flush, session_extend, session_note_assistant, flush_session,
      h01, h12, h02, hgap']
  · intro hgap
    have hgap' : ¬ t2 - t1 ≥ SESSION_GAP_SECONDS := by
      unfold SESSION_GAP_SECONDS; linarith
    simp [detect_sessions, groupByProject, passesFilter, addToGroup,
      detect_project_sessions, stableSort, insertLe, session_step,
      session_maybe_flush, session_extend, session_note_assistant, flush_session,
      h01, h12, h02, hgap']
  · simp [detect_sessions, groupByProject, passesFilter, addToGroup,
      detect_project_sessions, stableSort, insertLe, session_step,
      session_maybe_flush, session_extend, session_note_assistant, flush_session,
      h01, h12, h02]
  · simp [detect_sessions, groupByProject, passesFilter, addToGroup,
      detect_project_sessions, stableSort, insertLe, session_step,
      session_maybe_flush, session_extend, session_note_assistant, flush_session,
      h01, h12, h02]

/-- Witness for C3 at the spec's end-to-end scenario: user at 0, assistant at
60, user at 1000 in one project give two sessions. -/
theorem detect_sessions_split_rule_witness :
    detect_sessions [⟨0, "user", "/home/u/proj"⟩, ⟨60, "assistant", "/home/u/proj"⟩,
      ⟨1000, "user", "/home/u/proj"⟩] Option.none =
    [⟨_project_name "/home/u/proj", "/home/u/proj", 0, 60, 2⟩,
     ⟨_project_name "/home/u/proj", "/home/u/proj", 1000, 1000, 1⟩] :=
  (detect_sessions_split_rule "/home/u/proj" 0 60 1000
    (by norm_num) (by norm_num)).1 (by norm_num)

/-- C8: the sitting segmenter makes one chronological scan over all events
regardless of project and starts a new sitting exactly when the gap between
the current event and the end of the current sitting is at least 1200 seconds
(a gap of exactly 1200 splits, a smaller gap extends), each sitting recording
start and end timestamps, interaction count, and the set of distinct project
names touched. -/
theorem detect_sittings_split_rule (p1 p2 : String) (t0 t1 : ℚ) (h : t0 ≤ t1) :
    (t1 - t0 ≥ 1200 →
      detect_sittings [⟨t0, "user", p1⟩, ⟨t1, "assistant", p2⟩] =
        [⟨t0, t0, 1, {_project_name p1}⟩, ⟨t1, t1, 1, {_project_name p2}⟩]) ∧
    (t1 - t0 < 1200 →
      detect_sittings [⟨t0, "user", p1⟩, ⟨t1, "assistant", p2⟩] =
        [⟨t0, t1, 2, insert (_project_name p2) {_project_name p1}⟩]) := by
  refine ⟨?_, ?_⟩
  · intro hgap
    have hgap' : t1 - t0 ≥ SITTING_GAP_SECONDS := by
      unfold SITTING_GAP_SECONDS; linarith
    simp [detect_sittings, stableSort, insertLe, sittingScan, h, hgap']
  · intro hgap
    have hgap' : ¬ t1 - t0 ≥ SITTING_GAP_SECONDS := by
      unfold SITTING_GAP_SECONDS; linarith
    simp [detect_sittings, stableSort, insertLe, sittingScan, h, hgap']

/-- Witness for C8 at the exact 1200 second boundary. -/
theorem detect_sittings_split_rule_witness :
    detect_sittings [⟨0, "user", "/w/alpha"⟩, ⟨1200, "assistant", "/w/beta"⟩] =
      [⟨0, 0, 1, {_project_name "/w/alpha"}⟩,
       ⟨1200, 1200, 1, {_project_name "/w/beta"}⟩] :=
  (detect_sittings_split_rule "/w/alpha" "/w/beta" 0 1200 (by norm_num)).1
    (by norm_num)

/-! ## Conservation of interactions (C10) -/

/-- Total interaction count over a list of sessions. -/
def sessTotal (l : List Session) : Nat := (l.map Session.interactions).sum

/-- The reachable shapes of the scanning state: either the open-session
fields are all cleared, or start and end are both set. -/
def accOk (a : SessAcc) : Prop :=
  (a.sessionStart = Option.none ∧ a.sessionEnd = Option.none ∧
    a.sessionCount = 0) ∨
  (∃ s e : ℚ, a.sessionStart = some s ∧ a.sessionEnd = some e)

theorem flush_session_count (proj projFull : String) (a : SessAcc) :
    (flush_session proj projFull a).sessionCount = 0 := by
  unfold flush_session
  rcases hs : a.sessionStart with _ | s <;> rcases he : a.sessionEnd with _ | e <;>
    simp [hs, he]
  split_ifs <;> rfl

theorem flush_session_sum (proj projFull : String) (a : SessAcc) (h : accOk a) :
    sessTotal (flush_session proj projFull a).emitted +
      (flush_session proj projFull a).sessionCount =
    sessTotal a.emitted + a.sessionCount := by
  rw [flush_session_count]
  unfold flush_session
  rcases h with ⟨hs, he, hc⟩ | ⟨s, e, hs, he⟩
  · simp [hs, he, hc]
  · simp only [hs, he]
    split_ifs with hc
    · simp [sessTotal]
    · simp [sessTotal]
      omega

theorem flush_session_ok (proj projFull : String) (a : SessAcc) :
    accOk (flush_session proj projFull a) := by
  unfold flush_session
  rcases hs : a.sessionStart with _ | s <;> rcases he : a.sessionEnd with _ | e <;>
    simp [hs, he, accOk]
  split_ifs <;> simp [accOk]

theorem session_maybe_flush_cases (proj projFull : String) (a : SessAcc)
    (i : Interaction) :
    session_maybe_flush proj projFull a i = flush_session proj projFull a ∨
    session_maybe_flush proj projFull a i = a := by
  unfold session_maybe_flush
  split_ifs with hu
  · rcases hla : a.lastAssistant with _ | la
    · right; rfl
    · dsimp only
      split_ifs with hgap
      · left; rfl
      · right; rfl
  · right; rfl

theorem session_extend_emitted (a : SessAcc) (i : Interaction) :
    (session_extend a i).emitted = a.emitted := rfl

theorem session_extend_count (a : SessAcc) (i : Interaction) :
    (session_extend a i).sessionCount = a.sessionCount + 1 := rfl

theorem session_extend_start_some (a : SessAcc) (i : Interaction) :
    ∃ s, (session_extend a i).sessionStart = some s := by
  unfold session_extend
  rcases h : a.sessionStart with _ | s
  · exact ⟨i.timestamp, by simp [h]⟩
  · exact ⟨s, by simp [h]⟩

theorem session_note_assistant_fields (a : SessAcc) (i : Interaction) :
    (session_note_assistant a i).emitted = a.emitted ∧
    (session_note_assistant a i).sessionCount = a.sessionCount ∧
    (session_note_assistant a i).sessionStart = a.sessionStart ∧
    (session_note_assistant a i).sessionEnd = a.sessionEnd := by
  unfold session_note_assistant
  split_ifs <;> exact ⟨rfl, rfl, rfl, rfl⟩

theorem session_step_sum (proj projFull : String) (a : SessAcc) (i : Interaction)
    (h : accOk a) :
    sessTotal (session_step proj projFull a i).emitted +
        (session_step proj projFull a i).sessionCount =
      sessTotal a.emitted + a.sessionCount + 1 ∧
    accOk (session_step proj projFull a i) := by
  unfold session_step
  obtain ⟨he, hc, hst, hen⟩ :=
    session_note_assistant_fields (session_extend (session_maybe_flush proj projFull a i) i) i
  constructor
  · rw [he, hc, session_extend_emitted, session_extend_count]
    rcases session_maybe_flush_cases proj projFull a i with hm | hm
    · rw [hm]
      have h1 := flush_session_sum proj projFull a h
      have h2 := flush_session_count proj projFull a
      omega
    · rw [hm]; omega
  · right
    obtain ⟨s, hs⟩ := session_extend_start_some (session_maybe_flush proj projFull a i) i
    refine ⟨s, i.timestamp, ?_, ?_⟩
    · rw [hst, hs]
    · rw [hen]; rfl

theorem foldl_step_sum (proj projFull : String) (l : List Interaction) :
    ∀ a : SessAcc, accOk a →
    sessTotal (l.foldl (session_step proj projFull) a).emitted +
        (l.foldl (session_step proj projFull) a).sessionCount =
      sessTotal a.emitted + a.sessionCount + l.length ∧
    accOk (l.foldl (session_step proj projFull) a) := by
  induction l with
  | nil => intro a h; exact ⟨by simp, h⟩
  | cons i tl ih =>
    intro a h
    rw [List.foldl_cons]
    obtain ⟨h1, h2⟩ := session_step_sum proj projFull a i h
    obtain ⟨h3, h4⟩ := ih (session_step proj projFull a i) h2
    refine ⟨?_, h4⟩
    rw [h3, h1]
    simp only [List.length_cons]
    omega

theorem foldl_flush_total (proj projFull : String) (l : List Interaction)
    (a : SessAcc) (h : accOk a) :
    sessTotal (flush_session proj projFull
        (l.foldl (session_step proj projFull) a)).emitted =
      sessTotal a.emitted + a.sessionCount + l.length := by
  obtain ⟨h1, h2⟩ := foldl_step_sum proj projFull l a h
  have h3 := flush_session_sum proj projFull
    (l.foldl (session_step proj projFull) a) h2
  have h4 := flush_session_count proj projFull
    (l.foldl (session_step proj projFull) a)
  omega

/-- Each project's scan emits sessions whose interaction counts sum to the
number of that project's interactions. -/
theorem detect_project_sessions_total (projFull : String) (l : List Interaction) :
    sessTotal (detect_project_sessions projFull l) = l.length := by
  unfold detect_project_sessions
  rw [foldl_flush_total _ _ _ _ (Or.inl ⟨rfl, rfl, rfl⟩)]
  have h5 : (stableSort (fun a b => decide (a.timestamp ≤ b.timestamp)) l).length
      = l.length := (stableSort_perm _ l).length_eq
  simp [sessTotal, h5]

/-- Total number of interactions stored in a grouping. -/
def groupSizes (gs : List (String × List Interaction)) : Nat :=
  (gs.map (fun g => g.2.length)).sum

theorem addToGroup_size (gs : List (String × List Interaction)) (i : Interaction) :
    groupSizes (addToGroup gs i) = groupSizes gs + 1 := by
  induction gs with
  | nil => rfl
  | cons g tl ih =>
    rcases g with ⟨k, li⟩
    unfold addToGroup
    split_ifs with hk
    · simp [groupSizes]
      omega
    · simp only [groupSizes, List.map_cons, List.sum_cons] at ih ⊢
      omega

theorem groupByProject_size (l : List Interaction) (pf : Option String) :
    groupSizes (groupByProject l pf) = (l.filter (passesFilter pf)).length := by
  unfold groupByProject
  suffices h : ∀ acc, groupSizes (l.foldl
      (fun acc i => if passesFilter pf i then addToGroup acc i else acc) acc) =
      groupSizes acc + (l.filter (passesFilter pf)).length by
    simpa [groupSizes] using h []
  induction l with
  | nil => intro acc; simp
  | cons i tl ih =>
    intro acc
    rw [List.foldl_cons]
    cases hp : passesFilter pf i with
    | true =>
      simp only [hp, if_true]
      rw [ih (addToGroup acc i), addToGroup_size]
      simp [List.filter_cons, hp]
      omega
    | false =>
      simp only [hp, Bool.false_eq_true, if_false]
      rw [ih acc]
      simp [List.filter_cons, hp]

theorem sessTotal_append (l1 l2 : List Session) :
    sessTotal (l1 ++ l2) = sessTotal l1 + sessTotal l2 := by
  simp [sessTotal]

theorem sessTotal_groups (gs : List (String × List Interaction)) :
    sessTotal (gs.flatMap fun g => detect_project_sessions g.1 g.2) =
      groupSizes gs := by
  induction gs with
  | nil => rfl
  | cons g tl ih =>
    rw [List.flatMap_cons, sessTotal_append, ih, detect_project_sessions_total]
    simp [groupSizes]

theorem sessTotal_perm {l1 l2 : List Session} (h : l1.Perm l2) :
    sessTotal l1 = sessTotal l2 :=
  (h.map Session.interactions).sum_eq

/-- C10: detect_sessions conserves interactions: the interaction counts of
the returned sessions sum to the number of input interactions passing the
project filter, and an empty input yields the empty session list. -/
theorem detect_sessions_conserves_interactions (input : List Interaction)
    (project_filter : Option String) :
    sessTotal (detect_sessions input project_filter) =
      (input.filter (passesFilter project_filter)).length ∧
    detect_sessions [] project_filter = [] := by
  constructor
  · unfold detect_sessions
    rw [sessTotal_perm (stableSort_perm _ _)]
    rw [sessTotal_groups, groupByProject_size]
  · rfl

/-! ## Aggregation (compare.py) -/

/-- SessionMetrics from compare.py. -/
structure SessionMetrics where
  configuration : String
  hours : ℚ
  commits : Int
  delta : Int
  date : String
deriving DecidableEq, Repr

/-- AggregatedMetrics from compare.py. -/
structure AggregatedMetrics where
  sessions : Nat
  hours : ℚ
  commits : Int
  delta : Int
  delta_per_hour : ℚ
  commits_per_hour : ℚ
deriving DecidableEq, Repr

/-- The zero-initialized metrics record of aggregate_by_configuration. -/
def emptyAgg : AggregatedMetrics := ⟨0, 0, 0, 0, 0, 0⟩

/-- One session folded into a configuration's sums. -/
def aggAdd (m : AggregatedMetrics) (s : SessionMetrics) : AggregatedMetrics :=
  { m with
    sessions := m.sessions + 1
    hours := m.hours + s.hours
    commits := m.commits + s.commits
    delta := m.delta + s.delta }

/-- The rate pass of the aggregators: divide when the summed hours are
positive, otherwise leave the zero-initialized rates untouched. -/
def aggRates (m : AggregatedMetrics) : AggregatedMetrics :=
  if m.hours > 0 then
    { m with
      delta_per_hour := (m.delta : ℚ) / m.hours
      commits_per_hour := (m.commits : ℚ) / m.hours }
  else m

/-- aggregate_by_configuration from compare.py: a fixed three-entry dict in
the insertion order none, beads, beads+beadhub; sessions with any other
configuration are skipped; then the rate pass over every entry. -/
def aggregate_by_configuration (session_metrics : List SessionMetrics) :
    List (String × AggregatedMetrics) :=
  (session_metrics.foldl
      (fun acc s => acc.map
        (fun kv => if kv.1 = s.configuration then (kv.1, aggAdd kv.2 s) else kv))
      [("none", emptyAgg), ("beads", emptyAgg), ("beads+beadhub", emptyAgg)]).map
    (fun kv => (kv.1, aggRates kv.2))

/-- DailyMetrics from compare.py. -/
structure DailyMetrics where
  date : String
  configuration : String
  sessions : Nat
  hours : ℚ
  commits : Int
  delta : Int
  delta_per_hour : ℚ
  commits_per_hour : ℚ
deriving DecidableEq, Repr

/-- The zero-initialized group of aggregate_by_date_and_configuration. -/
def dailyEmpty (d c : String) : DailyMetrics := ⟨d, c, 0, 0, 0, 0, 0, 0⟩

/-- One session folded into its (date, configuration) group. -/
def dailyAdd (m : DailyMetrics) (s : SessionMetrics) : DailyMetrics :=
  { m with
    sessions := m.sessions + 1
    hours := m.hours + s.hours
    commits := m.commits + s.commits
    delta := m.delta + s.delta }

/-- The rate pass of aggregate_by_date_and_configuration. -/
def dailyRates (m : DailyMetrics) : DailyMetrics :=
  if m.hours > 0 then
    { m with
      delta_per_hour := (m.delta : ℚ) / m.hours
      commits_per_hour := (m.commits : ℚ) / m.hours }
  else m

/-- Insert a session into the (date, configuration) groups dict, preserving
insertion order; a new key starts from the zero-initialized group. -/
def dailyInsert : List DailyMetrics → SessionMetrics → List DailyMetrics
  | [], s => [dailyAdd (dailyEmpty s.date s.configuration) s]
  | m :: rest, s =>
    if m.date = s.date ∧ m.configuration = s.configuration then dailyAdd m s :: rest
    else m :: dailyInsert rest s

/-- Python's config_order.index with the 99 fallback for unknown labels. -/
def config_order_index (c : String) : Nat :=
  if c = "none" then 0 else if c = "beads" then 1
  else if c = "beads+beadhub" then 2 else 99

/-- The sort key of aggregate_by_date_and_configuration: date ascending, then
the fixed configuration order. -/
def dailyLe (a b : DailyMetrics) : Bool :=
  decide (a.date < b.date) ||
  (decide (a.date = b.date) &&
    decide (config_order_index a.configuration ≤ config_order_index b.configuration))

/-- aggregate_by_date_and_configuration from compare.py: empty input short
circuits; otherwise group by (date, configuration) in insertion order, apply
the rate pass, and sort by date then configuration order. -/
def aggregate_by_date_and_configuration (session_metrics : List SessionMetrics) :
    List DailyMetrics :=
  match session_metrics with
  | [] => []
  | _ :: _ =>
    stableSort dailyLe ((session_metrics.foldl dailyInsert []).map dailyRates)

theorem aggfold_eq (ms : List SessionMetrics) :
    ∀ init : List (String × AggregatedMetrics),
    ms.foldl (fun acc s => acc.map
        (fun kv => if kv.1 = s.configuration then (kv.1, aggAdd kv.2 s) else kv))
        init =
      init.map (fun kv =>
        (kv.1, (ms.filter (fun s => s.configuration = kv.1)).foldl aggAdd kv.2)) := by
  induction ms with
  | nil =>
    intro init
    simp only [List.foldl_nil, List.filter_nil]
    exact (List.map_id'' (fun kv => rfl) init).symm
  | cons s tl ih =>
    intro init
    rw [List.foldl_cons, ih, List.map_map]
    apply List.map_congr_left
    intro kv _
    simp only [Function.comp_apply]
    by_cases h : kv.1 = s.configuration
    · rw [if_pos h, List.filter_cons, if_pos (by simp [h.symm])]
      simp [List.foldl_cons]
    · rw [if_neg h, List.filter_cons,
        if_neg (by simp; intro hc; exact h hc.symm)]

theorem aggAdd_foldl_fields (ms : List SessionMetrics) :
    ∀ m : AggregatedMetrics,
    (ms.foldl aggAdd m).hours = m.hours + (ms.map SessionMetrics.hours).sum ∧
    (ms.foldl aggAdd m).commits = m.commits + (ms.map SessionMetrics.commits).sum ∧
    (ms.foldl aggAdd m).delta = m.delta + (ms.map SessionMetrics.delta).sum ∧
    (ms.foldl aggAdd m).delta_per_hour = m.delta_per_hour ∧
    (ms.foldl aggAdd m).commits_per_hour = m.commits_per_hour := by
  induction ms with
  | nil => intro m; simp
  | cons s tl ih =>
    intro m
    rw [List.foldl_cons]
    obtain ⟨h1, h2, h3, h4, h5⟩ := ih (aggAdd m s)
    refine ⟨?_, ?_, ?_, ?_, ?_⟩
    · rw [h1]; simp only [aggAdd, List.map_cons, List.sum_cons]; ring
    · rw [h2]; simp only [aggAdd, List.map_cons, List.sum_cons]; ring
    · rw [h3]; simp only [aggAdd, List.map_cons, List.sum_cons]; ring
    · rw [h4]; rfl
    · rw [h5]; rfl

theorem aggRates_sums (m : AggregatedMetrics) :
    (aggRates m).hours = m.hours ∧ (aggRates m).commits = m.commits ∧
    (aggRates m).delta = m.delta := by
  unfold aggRates
  split_ifs <;> exact ⟨rfl, rfl, rfl⟩

theorem aggRates_rates (m : AggregatedMetrics) :
    (m.hours > 0 → (aggRates m).delta_per_hour = (m.delta : ℚ) / m.hours ∧
      (aggRates m).commits_per_hour = (m.commits : ℚ) / m.hours) ∧
    (¬ m.hours > 0 → (aggRates m).delta_per_hour = m.delta_per_hour ∧
      (aggRates m).commits_per_hour = m.commits_per_hour) := by
  unfold aggRates
  split_ifs with h
  · exact ⟨fun _ => ⟨rfl, rfl⟩, fun hn => absurd h hn⟩
  · exact ⟨fun hp => absurd hp h, fun _ => ⟨rfl, rfl⟩⟩

theorem dailyRates_sums (m : DailyMetrics) :
    (dailyRates m).hours = m.hours ∧ (dailyRates m).commits = m.commits ∧
    (dailyRates m).delta = m.delta := by
  unfold dailyRates
  split_ifs <;> exact ⟨rfl, rfl, rfl⟩

theorem dailyRates_rates (m : DailyMetrics) :
    (m.hours > 0 → (dailyRates m).delta_per_hour = (m.delta : ℚ) / m.hours ∧
      (dailyRates m).commits_per_hour = (m.commits : ℚ) / m.hours) ∧
    (¬ m.hours > 0 → (dailyRates m).delta_per_hour = m.delta_per_hour ∧
      (dailyRates m).commits_per_hour = m.commits_per_hour) := by
  unfold dailyRates
  split_ifs with h
  · exact ⟨fun _ => ⟨rfl, rfl⟩, fun hn => absurd h hn⟩
  · exact ⟨fun hp => absurd hp h, fun _ => ⟨rfl, rfl⟩⟩

theorem dailyInsert_rates_zero (s : SessionMetrics) :
    ∀ acc : List DailyMetrics,
    (∀ m ∈ acc, m.delta_per_hour = 0 ∧ m.commits_per_hour = 0) →
    ∀ m ∈ dailyInsert acc s, m.delta_per_hour = 0 ∧ m.commits_per_hour = 0 := by
  intro acc
  induction acc with
  | nil =>
    intro _ m hm
    simp only [dailyInsert, List.mem_singleton] at hm
    rw [hm]
    exact ⟨rfl, rfl⟩
  | cons m0 tl ih =>
    intro hacc m hm
    unfold dailyInsert at hm
    split_ifs at hm with hc
    · rcases List.mem_cons.mp hm with h | h
      · rw [h]
        obtain ⟨z1, z2⟩ := hacc m0 (List.mem_cons_self _ _)
        exact ⟨z1, z2⟩
      · exact hacc m (List.mem_cons_of_mem _ h)
    · rcases List.mem_cons.mp hm with h | h
      · rw [h]; exact hacc m0 (List.mem_cons_self _ _)
      · exact ih (fun m' hm' => hacc m' (List.mem_cons_of_mem _ hm')) m h

theorem dailyGroups_rates_zero (ms : List SessionMetrics) :
    ∀ acc : List DailyMetrics,
    (∀ m ∈ acc, m.delta_per_hour = 0 ∧ m.commits_per_hour = 0) →
    ∀ m ∈ ms.foldl dailyInsert acc, m.delta_per_hour = 0 ∧ m.commits_per_hour = 0 := by
  induction ms with
  | nil => intro acc h; exact h
  | cons s tl ih =>
    intro acc h
    rw [List.foldl_cons]
    exact ih _ (dailyInsert_rates_zero s acc h)

theorem aggRates_entry_correct (v : AggregatedMetrics)
    (hdp : v.delta_per_hour = 0) (hcp : v.commits_per_hour = 0) :
    ((aggRates v).hours > 0 →
      (aggRates v).delta_per_hour = ((aggRates v).delta : ℚ) / (aggRates v).hours ∧
      (aggRates v).commits_per_hour = ((aggRates v).commits : ℚ) / (aggRates v).hours) ∧
    ((aggRates v).hours = 0 →
      (aggRates v).delta_per_hour = 0 ∧ (aggRates v).commits_per_hour = 0) := by
  obtain ⟨r1, r2, r3⟩ := aggRates_sums v
  obtain ⟨q1, q2⟩ := aggRates_rates v
  constructor
  · intro hpos
    rw [r1] at hpos
    obtain ⟨a1, a2⟩ := q1 hpos
    rw [a1, a2, r1, r2, r3]
    exact ⟨rfl, rfl⟩
  · intro hz
    rw [r1] at hz
    have hnp : ¬ v.hours > 0 := by rw [hz]; exact lt_irrefl 0
    obtain ⟨a1, a2⟩ := q2 hnp
    rw [a1, a2, hdp, hcp]
    exact ⟨rfl, rfl⟩

theorem dailyRates_entry_correct (m : DailyMetrics)
    (hdp : m.delta_per_hour = 0) (hcp : m.commits_per_hour = 0) :
    ((dailyRates m).hours > 0 →
      (dailyRates m).delta_per_hour = ((dailyRates m).delta : ℚ) / (dailyRates m).hours ∧
      (dailyRates m).commits_per_hour = ((dailyRates m).commits : ℚ) / (dailyRates m).hours) ∧
    ((dailyRates m).hours = 0 →
      (dailyRates m).delta_per_hour = 0 ∧ (dailyRates m).commits_per_hour = 0) := by
  obtain ⟨r1, r2, r3⟩ := dailyRates_sums m
  obtain ⟨q1, q2⟩ := dailyRates_rates m
  constructor
  · intro hpos
    rw [r1] at hpos
    obtain ⟨a1, a2⟩ := q1 hpos
    rw [a1, a2, r1, r2, r3]
    exact ⟨rfl, rfl⟩
  · intro hz
    rw [r1] at hz
    have hnp : ¬ m.hours > 0 := by rw [hz]; exact lt_irrefl 0
    obtain ⟨a1, a2⟩ := q2 hnp
    rw [a1, a2, hdp, hcp]
    exact ⟨rfl, rfl⟩

theorem agg_config_entry (ms : List SessionMetrics) (cfg : String) :
    (aggRates ((ms.filter (fun s => s.configuration = cfg)).foldl aggAdd emptyAgg)).hours =
      ((ms.filter (fun s => s.configuration = cfg)).map SessionMetrics.hours).sum ∧
    (aggRates ((ms.filter (fun s => s.configuration = cfg)).foldl aggAdd emptyAgg)).delta =
      ((ms.filter (fun s => s.configuration = cfg)).map SessionMetrics.delta).sum ∧
    (aggRates ((ms.filter (fun s => s.configuration = cfg)).foldl aggAdd emptyAgg)).commits =
      ((ms.filter (fun s => s.configuration = cfg)).map SessionMetrics.commits).sum ∧
    ((aggRates ((ms.filter (fun s => s.configuration = cfg)).foldl aggAdd emptyAgg)).hours > 0 →
      (aggRates ((ms.filter (fun s => s.configuration = cfg)).foldl aggAdd emptyAgg)).delta_per_hour =
        ((aggRates ((ms.filter (fun s => s.configuration = cfg)).foldl aggAdd emptyAgg)).delta : ℚ) /
          (aggRates ((ms.filter (fun s => s.configuration = cfg)).foldl aggAdd emptyAgg)).hours ∧
      (aggRates ((ms.filter (fun s => s.configuration = cfg)).foldl aggAdd emptyAgg)).commits_per_hour =
        ((aggRates ((ms.filter (fun s => s.configuration = cfg)).foldl aggAdd emptyAgg)).commits : ℚ) /
          (aggRates ((ms.filter (fun s => s.configuration = cfg)).foldl aggAdd emptyAgg)).hours) ∧
    ((aggRates ((ms.filter (fun s => s.configuration = cfg)).foldl aggAdd emptyAgg)).hours = 0 →
      (aggRates ((ms.filter (fun s => s.configuration = cfg)).foldl aggAdd emptyAgg)).delta_per_hour = 0 ∧
      (aggRates ((ms.filter (fun s => s.configuration = cfg)).foldl aggAdd emptyAgg)).commits_per_hour = 0) := by
  obtain ⟨f1, f2, f3, f4, f5⟩ :=
    aggAdd_foldl_fields (ms.filter (fun s => s.configuration = cfg)) emptyAgg
  obtain ⟨r1, r2, r3⟩ :=
    aggRates_sums ((ms.filter (fun s => s.configuration = cfg)).foldl aggAdd emptyAgg)
  have hdp : ((ms.filter (fun s => s.configuration = cfg)).foldl aggAdd
      emptyAgg).delta_per_hour = 0 := f4.trans rfl
  have hcp : ((ms.filter (fun s => s.configuration = cfg)).foldl aggAdd
      emptyAgg).commits_per_hour = 0 := f5.trans rfl
  obtain ⟨w1, w2⟩ := aggRates_entry_correct
    ((ms.filter (fun s => s.configuration = cfg)).foldl aggAdd emptyAgg) hdp hcp
  refine ⟨?_, ?_, ?_, w1, w2⟩
  · rw [r1, f1]; simp [emptyAgg]
  · rw [r3, f3]; simp [emptyAgg]
  · rw [r2, f2]; simp [emptyAgg]

theorem agg_concrete_example :
    aggregate_by_configuration
      [⟨"beads", 1, 2, 100, "2025-06-01"⟩, ⟨"beads", 1, 2, 100, "2025-06-01"⟩] =
      [("none", emptyAgg),
       ("beads", ⟨2, 2, 4, 200, 100, 2⟩),
       ("beads+beadhub", emptyAgg)] := by
  have hf1 : ([⟨"beads", 1, 2, 100, "2025-06-01"⟩,
      ⟨"beads", 1, 2, 100, "2025-06-01"⟩] : List SessionMetrics).filter
        (fun s => s.configuration = "none") = [] := by
    simp
  have hf2 : ([⟨"beads", 1, 2, 100, "2025-06-01"⟩,
      ⟨"beads", 1, 2, 100, "2025-06-01"⟩] : List SessionMetrics).filter
        (fun s => s.configuration = "beads") =
      [⟨"beads", 1, 2, 100, "2025-06-01"⟩, ⟨"beads", 1, 2, 100, "2025-06-01"⟩] := by
    simp
  have hf3 : ([⟨"beads", 1, 2, 100, "2025-06-01"⟩,
      ⟨"beads", 1, 2, 100, "2025-06-01"⟩] : List SessionMetrics).filter
        (fun s => s.configuration = "beads+beadhub") = [] := by
    simp
  have ha1 : aggAdd emptyAgg ⟨"beads", 1, 2, 100, "2025-06-01"⟩ =
      ⟨1, 1, 2, 100, 0, 0⟩ := by norm_num [aggAdd, emptyAgg]
  have ha2 : aggAdd ⟨1, 1, 2, 100, 0, 0⟩ ⟨"beads", 1, 2, 100, "2025-06-01"⟩ =
      ⟨2, 2, 4, 200, 0, 0⟩ := by norm_num [aggAdd]
  have hr0 : aggRates emptyAgg = emptyAgg := by norm_num [aggRates, emptyAgg]
  have hr2 : aggRates ⟨2, 2, 4, 200, 0, 0⟩ = ⟨2, 2, 4, 200, 100, 2⟩ := by
    norm_num [aggRates]
  unfold aggregate_by_configuration
  rw [aggfold_eq]
  simp only [List.map_cons, List.map_nil]
  simp [hf1, hf2, hf3, List.foldl_cons, List.foldl_nil, ha1, ha2, hr0, hr2]

/-- C5: in every per-configuration group produced by
aggregate_by_configuration the summed fields are the sums over that
configuration's sessions and the rates are summed delta (resp. commits)
divided by summed hours when positive and 0 when the summed hours are 0; the
same rate rule holds for every (date, configuration) group produced by
aggregate_by_date_and_configuration; and two sessions of 1.0 hours, 2 commits
and 100 delta each aggregate to commits_per_hour 2.0 and delta_per_hour
100.0. -/
theorem aggregate_rates_correct (ms : List SessionMetrics)
    (kv : String × AggregatedMetrics) (g : DailyMetrics)
    (hkv : kv ∈ aggregate_by_configuration ms)
    (hg : g ∈ aggregate_by_date_and_configuration ms) :
    (kv.2.hours = ((ms.filter (fun s => s.configuration = kv.1)).map
        SessionMetrics.hours).sum ∧
     kv.2.delta = ((ms.filter (fun s => s.configuration = kv.1)).map
        SessionMetrics.delta).sum ∧
     kv.2.commits = ((ms.filter (fun s => s.configuration = kv.1)).map
        SessionMetrics.commits).sum) ∧
    ((kv.2.hours > 0 → kv.2.delta_per_hour = (kv.2.delta : ℚ) / kv.2.hours ∧
        kv.2.commits_per_hour = (kv.2.commits : ℚ) / kv.2.hours) ∧
     (kv.2.hours = 0 → kv.2.delta_per_hour = 0 ∧ kv.2.commits_per_hour = 0)) ∧
    ((g.hours > 0 → g.delta_per_hour = (g.delta : ℚ) / g.hours ∧
        g.commits_per_hour = (g.commits : ℚ) / g.hours) ∧
     (g.hours = 0 → g.delta_per_hour = 0 ∧ g.commits_per_hour = 0)) ∧
    aggregate_by_configuration
      [⟨"beads", 1, 2, 100, "2025-06-01"⟩, ⟨"beads", 1, 2, 100, "2025-06-01"⟩] =
      [("none", emptyAgg),
       ("beads", ⟨2, 2, 4, 200, 100, 2⟩),
       ("beads+beadhub", emptyAgg)] := by
  have hdaily : (g.hours > 0 → g.delta_per_hour = (g.delta : ℚ) / g.hours ∧
      g.commits_per_hour = (g.commits : ℚ) / g.hours) ∧
      (g.hours = 0 → g.delta_per_hour = 0 ∧ g.commits_per_hour = 0) := by
    unfold aggregate_by_date_and_configuration at hg
    cases ms with
    | nil => cases hg
    | cons s0 tl =>
      have hmem := (stableSort_perm dailyLe _).mem_iff.mp hg
      rw [List.mem_map] at hmem
      obtain ⟨m, hm, hgm⟩ := hmem
      obtain ⟨z1, z2⟩ := dailyGroups_rates_zero (s0 :: tl) []
        (by intro m' hm'; cases hm') m hm
      obtain ⟨w1, w2⟩ := dailyRates_entry_correct m z1 z2
      rw [← hgm]
      constructor
      · intro hpos
        obtain ⟨a1, a2⟩ := w1 hpos
        exact ⟨a1, a2⟩
      · intro hz
        obtain ⟨a1, a2⟩ := w2 hz
        exact ⟨a1, a2⟩
  have hconc : aggregate_by_configuration
      [⟨"beads", 1, 2, 100, "2025-06-01"⟩, ⟨"beads", 1, 2, 100, "2025-06-01"⟩] =
      [("none", emptyAgg),
       ("beads", ⟨2, 2, 4, 200, 100, 2⟩),
       ("beads+beadhub", emptyAgg)] := agg_concrete_example
  unfold aggregate_by_configuration at hkv
  rw [aggfold_eq, List.map_map] at hkv
  simp only [List.map_cons, List.map_nil, Function.comp_apply, List.mem_cons,
    List.not_mem_nil, or_false] at hkv
  rcases hkv with hkv | hkv | hkv
  · subst hkv
    have h := agg_config_entry ms "none"
    exact ⟨⟨h.1, h.2.1, h.2.2.1⟩, ⟨h.2.2.2.1, h.2.2.2.2⟩, hdaily, hconc⟩
  · subst hkv
    have h := agg_config_entry ms "beads"
    exact ⟨⟨h.1, h.2.1, h.2.2.1⟩, ⟨h.2.2.2.1, h.2.2.2.2⟩, hdaily, hconc⟩
  · subst hkv
    have h := agg_config_entry ms "beads+beadhub"
    exact ⟨⟨h.1, h.2.1, h.2.2.1⟩, ⟨h.2.2.2.1, h.2.2.2.2⟩, hdaily, hconc⟩

/-- Witness for C5: the theorem applied to the concrete two-session input,
with concrete members of both aggregations. -/
theorem aggregate_rates_correct_witness :
    aggregate_by_configuration
      [⟨"beads", 1, 2, 100, "2025-06-01"⟩, ⟨"beads", 1, 2, 100, "2025-06-01"⟩] =
      [("none", emptyAgg),
       ("beads", ⟨2, 2, 4, 200, 100, 2⟩),
       ("beads+beadhub", emptyAgg)] := by
  have hmem1 : (("none", emptyAgg) : String × AggregatedMetrics) ∈
      aggregate_by_configuration
        [⟨"beads", 1, 2, 100, "2025-06-01"⟩, ⟨"beads", 1, 2, 100, "2025-06-01"⟩] := by
    rw [agg_concrete_example]
    simp
  have hd1 : dailyInsert [] ⟨"beads", 1, 2, 100, "2025-06-01"⟩ =
      [⟨"2025-06-01", "beads", 1, 1, 2, 100, 0, 0⟩] := by
    simp [dailyInsert, dailyAdd, dailyEmpty]
  have hd2 : dailyInsert [⟨"2025-06-01", "beads", 1, 1, 2, 100, 0, 0⟩]
      ⟨"beads", 1, 2, 100, "2025-06-01"⟩ =
      [⟨"2025-06-01", "beads", 2, 2, 4, 200, 0, 0⟩] := by
    norm_num [dailyInsert, dailyAdd]
  have hd3 : dailyRates ⟨"2025-06-01", "beads", 2, 2, 4, 200, 0, 0⟩ =
      ⟨"2025-06-01", "beads", 2, 2, 4, 200, 100, 2⟩ := by
    norm_num [dailyRates]
  have ha : dailyAdd (dailyEmpty "2025-06-01" "beads")
      ⟨"beads", 1, 2, 100, "2025-06-01"⟩ =
      ⟨"2025-06-01", "beads", 1, 1, 2, 100, 0, 0⟩ := by
    norm_num [dailyAdd, dailyEmpty]
  have hb : dailyAdd ⟨"2025-06-01", "beads", 1, 1, 2, 100, 0, 0⟩
      ⟨"beads", 1, 2, 100, "2025-06-01"⟩ =
      ⟨"2025-06-01", "beads", 2, 2, 4, 200, 0, 0⟩ := by
    norm_num [dailyAdd]
  have hmem2 : (⟨"2025-06-01", "beads", 2, 2, 4, 200, 100, 2⟩ : DailyMetrics) ∈
      aggregate_by_date_and_configuration
        [⟨"beads", 1, 2, 100, "2025-06-01"⟩, ⟨"beads", 1, 2, 100, "2025-06-01"⟩] := by
    unfold aggregate_by_date_and_configuration
    simp [List.foldl_cons, List.foldl_nil, hd1, hd2, hd3, stableSort, insertLe]
    rw [ha, hb, hd3]
  exact (aggregate_rates_correct _ _ _ hmem1 hmem2).2.2.2

/-- Witness for C4: the theorem's concrete intersection instance. -/
theorem intersect_eq_merge_of_overlaps_witness :
    intersect_coverage_windows
      [(⟨2025,1,1⟩, ⟨2025,2,28⟩), (⟨2025,4,1⟩, ⟨2025,5,31⟩)]
      [(⟨2025,2,1⟩, ⟨2025,4,30⟩)] =
      [(⟨2025,2,1⟩, ⟨2025,2,28⟩), (⟨2025,4,1⟩, ⟨2025,4,30⟩)] :=
  (intersect_eq_merge_of_overlaps [] []).2

/-- Witness for C6 at a concrete session and sitting. -/
theorem estimated_seconds_formula_witness :
    (⟨"proj", "/p/proj", 0, 60, 2⟩ : Session).estimated_seconds =
      max 0 ((60 : ℚ) - 0) + 180 :=
  (estimated_seconds_formula ⟨"proj", "/p/proj", 0, 60, 2⟩ ⟨0, 60, 2, {"proj"}⟩).1

/-- Witness for C10 at a concrete one-interaction input. -/
theorem detect_sessions_conserves_interactions_witness :
    sessTotal (detect_sessions [⟨0, "user", "/p/a"⟩] Option.none) =
      (([⟨0, "user", "/p/a"⟩] : List Interaction).filter
        (passesFilter Option.none)).length :=
  (detect_sessions_conserves_interactions [⟨0, "user", "/p/a"⟩] Option.none).1
